import Mathlib

/-!
Verification of the Code Map outline extractor of the Textify add-on
(`tools/code_map.py`).  The Python source is shallowly embedded below:
pure helper functions become Lean functions over `List Char` / `String`,
the mutable `CodeItem` tree becomes the mutual inductive
`CodeItem` / `CodeForest`, and the in-place mutations performed by the
analyzer and the renderer are modelled by explicit state passing
(functions return the post-state of the tree they "mutated").

The Python `ast` module is external to the repository; the result of
`ast.parse` + `ast.walk` is therefore supplied to the analyzer as an
explicit argument: a `Option (List PyAstNode)` that is `none` when
parsing raises `SyntaxError` and otherwise lists the walked nodes
(only the node kinds inspected by `ASTAnalyzer._process_ast` are
distinguished; all others are `othernode` and are skipped exactly as
the `isinstance` checks in the source skip them).
-/

/-- ASCII model of Python's `str.strip()` whitespace class (the source
    is ASCII Python code; the regexes below likewise use the ASCII
    fragment of `\s` and `\w`). -/
def pyWS (c : Char) : Bool :=
  c == ' ' || c == '\t' || c == '\n' || c == '\r' || c == '\x0b' || c == '\x0c'

/-- Python `line.lstrip()`. -/
def pyLstrip (l : List Char) : List Char := l.dropWhile pyWS

/-- Python `line.strip()`. -/
def pyStrip (l : List Char) : List Char :=
  ((l.dropWhile pyWS).reverse.dropWhile pyWS).reverse

/-- `CodeAnalyzer._get_indent_level`: `len(line) - len(line.lstrip())`,
    i.e. the number of leading whitespace characters. -/
def indentLevel (l : List Char) : Nat := (l.takeWhile pyWS).length

/-- Python `text.split('\n')` (note: `''.split('\n') == ['']`). -/
def splitNl : List Char → List (List Char)
  | [] => [[]]
  | c :: rest =>
    if c = '\n' then [] :: splitNl rest
    else
      match splitNl rest with
      | [] => [[c]]
      | l :: ls => (c :: l) :: ls

/-- Python `enumerate(lines, start)`. -/
def enumFrom (n : Nat) : List α → List (Nat × α)
  | [] => []
  | a :: as => (n, a) :: enumFrom (n + 1) as

/-- ASCII `\w`: `[A-Za-z0-9_]`. -/
def wordChar (c : Char) : Bool := c.isAlpha || c.isDigit || c == '_'

/-- First character of the constant capture group `[A-Z_]`. -/
def upperStart (c : Char) : Bool := c.isUpper || c == '_'

/-- Continuation of the constant capture group `[A-Z0-9_]`. -/
def upperCont (c : Char) : Bool := c.isUpper || c.isDigit || c == '_'

/-- `[a-zA-Z_]`, the first character of the identifier branch of
    `VARIABLE_PATTERN`. -/
def identStart (c : Char) : Bool := c.isAlpha || c == '_'

/-- ASCII model of Python `str.isupper()`: at least one cased character
    and no lowercase cased character. -/
def pyIsUpper (s : String) : Bool :=
  s.data.any (fun c => c.isAlpha) && s.data.all (fun c => !c.isLower)

/-- Match a literal character sequence at the head of the input,
    returning the rest. -/
def dropLit : List Char → List Char → Option (List Char)
  | [], l => some l
  | c :: cs, x :: xs => if x = c then dropLit cs xs else none
  | _ :: _, [] => none

/-- `needle` is a prefix of `hay`. -/
def isPrefixL : List Char → List Char → Bool
  | [], _ => true
  | _ :: _, [] => false
  | a :: as, b :: bs => a == b && isPrefixL as bs

/-- Python's `needle in hay` substring test (true for the empty needle). -/
def subStr (needle : List Char) : List Char → Bool
  | [] => needle.isEmpty
  | c :: rest => isPrefixL needle (c :: rest) || subStr needle rest

/-- Python's `sub.lower() in s.lower()` (ASCII `str.lower()`). -/
def lowerInfix (sub s : String) : Bool :=
  subStr (sub.data.map Char.toLower) (s.data.map Char.toLower)

/-- Character membership, Python `c in line`. -/
def containsC (l : List Char) (c : Char) : Bool := l.any (fun x => x == c)

/-- Python `line.startswith('#')`. -/
def startsHash : List Char → Bool
  | '#' :: _ => true
  | _ => false

/-- Python `full_line.split('=', 1)[1]`: everything after the first `=`
    (the empty list when there is none; only used under an `'=' in
    full_line` guard, mirroring the source). -/
def afterFirst (c : Char) : List Char → List Char
  | [] => []
  | x :: xs => if x = c then xs else afterFirst c xs

/-- The `item_type` strings used by `code_map.py`:
    `'class'`, `'function'`, `'method'`, `'property'`, `'variable'`,
    `'constant'`. -/
inductive Kind where
  | class_ | function_ | method_ | property_ | variable_ | constant_
deriving DecidableEq

/- `CodeItem` of the source, together with `CodeForest` for its
   `children` list (a mutual inductive so that all recursion over the
   tree is structural).  The `parent` back-reference of the source is
   not stored: wherever the source reads `item.parent.item_type`, the
   embedding threads the parent's kind through the recursion, which
   agrees with the back-pointers the builder establishes. -/
mutual
inductive CodeItem where
  | mk (name : String) (item_type : Kind) (line_number : Nat)
       (indent_level : Nat) (children : CodeForest) (end_line : Option Nat)
       (bl_idname : Option String) (value_preview : Option String)
inductive CodeForest where
  | nil
  | cons (it : CodeItem) (rest : CodeForest)
end

def CodeItem.name : CodeItem → String
  | .mk n _ _ _ _ _ _ _ => n

def CodeItem.item_type : CodeItem → Kind
  | .mk _ k _ _ _ _ _ _ => k

def CodeItem.line_number : CodeItem → Nat
  | .mk _ _ ln _ _ _ _ _ => ln

def CodeItem.indent_level : CodeItem → Nat
  | .mk _ _ _ il _ _ _ _ => il

def CodeItem.children : CodeItem → CodeForest
  | .mk _ _ _ _ ch _ _ _ => ch

def CodeItem.end_line : CodeItem → Option Nat
  | .mk _ _ _ _ _ el _ _ => el

def CodeItem.bl_idname : CodeItem → Option String
  | .mk _ _ _ _ _ _ bi _ => bi

def CodeItem.value_preview : CodeItem → Option String
  | .mk _ _ _ _ _ _ _ vp => vp

def CodeItem.withChildren : CodeItem → CodeForest → CodeItem
  | .mk n k ln il _ el bi vp, ch => .mk n k ln il ch el bi vp

def CodeItem.withEnd : CodeItem → Option Nat → CodeItem
  | .mk n k ln il ch _ bi vp, el => .mk n k ln il ch el bi vp

def CodeItem.withBl : CodeItem → Option String → CodeItem
  | .mk n k ln il ch el _ vp, bi => .mk n k ln il ch el bi vp

def CodeItem.withPreview : CodeItem → Option String → CodeItem
  | .mk n k ln il ch el bi _, vp => .mk n k ln il ch el bi vp

def CodeForest.toList : CodeForest → List CodeItem
  | .nil => []
  | .cons a as => a :: as.toList

/-- Append one item at the end (Python `list.append`). -/
def CodeForest.snoc : CodeForest → CodeItem → CodeForest
  | .nil, it => .cons it .nil
  | .cons a as, it => .cons a (as.snoc it)

/-- `CodePatterns.CLASS_PATTERN = r'^\s*class\s+(\w+)\s*[\(:]'` applied
    with `re.match`.  The character classes of the pattern are pairwise
    disjoint, so the backtracking regex engine is equivalent to this
    maximal-munch parser. -/
def matchClassPat (l : List Char) : Option String :=
  match dropLit ['c', 'l', 'a', 's', 's'] (l.dropWhile pyWS) with
  | none => none
  | some l2 =>
    match l2 with
    | [] => none
    | c :: _ =>
      if pyWS c then
        let l3 := l2.dropWhile pyWS
        let nm := l3.takeWhile wordChar
        if nm.isEmpty then none
        else
          match (l3.dropWhile wordChar).dropWhile pyWS with
          | '(' :: _ => some (String.mk nm)
          | ':' :: _ => some (String.mk nm)
          | _ => none
      else none

/-- `CodePatterns.FUNCTION_PATTERN = r'^\s*def\s+(\w+)\s*\('`. -/
def matchFunctionPat (l : List Char) : Option String :=
  match dropLit ['d', 'e', 'f'] (l.dropWhile pyWS) with
  | none => none
  | some l2 =>
    match l2 with
    | [] => none
    | c :: _ =>
      if pyWS c then
        let l3 := l2.dropWhile pyWS
        let nm := l3.takeWhile wordChar
        if nm.isEmpty then none
        else
          match (l3.dropWhile wordChar).dropWhile pyWS with
          | '(' :: _ => some (String.mk nm)
          | _ => none
      else none

/-- `CodePatterns.PROPERTY_PATTERN = r'^\s*([\w]+)\s*:\s*[\w\[\]]+'`. -/
def matchPropertyPat (l : List Char) : Option String :=
  let l1 := l.dropWhile pyWS
  let nm := l1.takeWhile wordChar
  if nm.isEmpty then none
  else
    match (l1.dropWhile wordChar).dropWhile pyWS with
    | ':' :: r =>
      match r.dropWhile pyWS with
      | c :: _ => if wordChar c || c == '[' || c == ']' then some (String.mk nm) else none
      | [] => none
    | _ => none

/-- `CodePatterns.CONSTANT_PATTERN = r'^\s*([A-Z_][A-Z0-9_]*)\s*='`. -/
def matchConstantPat (l : List Char) : Option String :=
  match l.dropWhile pyWS with
  | [] => none
  | c :: rest =>
    if upperStart c then
      let nmRest := rest.takeWhile upperCont
      match (rest.dropWhile upperCont).dropWhile pyWS with
      | '=' :: _ => some (String.mk (c :: nmRest))
      | _ => none
    else none

/-- `CodePatterns.VARIABLE_PATTERN =
    r'^\s*([A-Z_][A-Z0-9_]*|[a-zA-Z_]\w*)\s*=\s*'`.  The first
    alternation branch has the same shape as `CONSTANT_PATTERN`; the
    second is tried when the first fails to reach an `=`. -/
def matchVariablePat (l : List Char) : Option String :=
  match matchConstantPat l with
  | some nm => some nm
  | none =>
    match l.dropWhile pyWS with
    | [] => none
    | c :: rest =>
      if identStart c then
        let nmRest := rest.takeWhile wordChar
        match (rest.dropWhile wordChar).dropWhile pyWS with
        | '=' :: _ => some (String.mk (c :: nmRest))
        | _ => none
      else none

/-- The truncated right-hand-side text computed by
    `CodeAnalyzer._parse_line` for constants and variables:
    `value_part = full_line.split('=', 1)[1].strip()` followed by
    `value_part[:50] + ("..." if len(value_part) > 50 else "")`. -/
def previewOf (full_line : List Char) : String :=
  let value_part := pyStrip (afterFirst '=' full_line)
  String.mk (value_part.take 50 ++ (if 50 < value_part.length then ['.', '.', '.'] else []))

/-- The `value_preview` assigned by `_parse_line`, guarded by
    `if '=' in full_line`. -/
def assignPreview (full_line : List Char) : Option String :=
  if containsC full_line '=' then some (previewOf full_line) else none

/-- The variable branch of `_parse_line` (tried after the constant
    branch falls through). -/
def parseVarCase (l : List Char) (line_num indent : Nat) (parent_type : Option Kind)
    (full_line : List Char) : Option CodeItem :=
  match (if parent_type = none then matchVariablePat l else none) with
  | some nm =>
    if pyIsUpper nm then none
    else some (.mk nm .variable_ line_num indent .nil none none (assignPreview full_line))
  | none => none

/-- `CodeAnalyzer._parse_line(line, line_num, indent, parent_type,
    full_line)`: the cascade of pattern tests, in source order, with the
    fall-through behaviour of the guarded property and constant
    branches. -/
def parse_line (l : List Char) (line_num indent : Nat) (parent_type : Option Kind)
    (full_line : List Char) : Option CodeItem :=
  match matchClassPat l with
  | some nm => some (.mk nm .class_ line_num indent .nil none none none)
  | none =>
    match matchFunctionPat l with
    | some nm =>
      let kind := if parent_type = some Kind.class_ ∨ parent_type = some Kind.function_
        then Kind.method_ else Kind.function_
      some (.mk nm kind line_num indent .nil none none none)
    | none =>
      match (match matchPropertyPat l with
             | some nm =>
               if containsC l ':' && !startsHash l && !containsC l '=' then some nm else none
             | none => none) with
      | some nm => some (.mk nm .property_ line_num indent .nil none none none)
      | none =>
        match (if parent_type = none then matchConstantPat l else none) with
        | some nm =>
          if pyIsUpper nm then
            some (.mk nm .constant_ line_num indent .nil none none (assignPreview full_line))
          else parseVarCase l line_num indent parent_type full_line
        | none => parseVarCase l line_num indent parent_type full_line

/-- An open node on the builder's stack in `CodeAnalyzer.analyze_text`.
    In the source, `add_child` appends the item to its parent
    immediately and the item keeps growing afterwards; since a parent
    receives no further child while one child is open, this is
    order-equivalent to keeping the open node's accumulated children in
    a frame and attaching the completed node when it is popped, which is
    what the embedding does. -/
structure Frame where
  fname : String
  fkind : Kind
  fline : Nat
  findent : Nat
  fchildren : CodeForest

/-- Close a frame into the `CodeItem` it has been standing for
    (`end_line`, `bl_idname` and `value_preview` of a class / function
    / method item are still `None` at build time). -/
def Frame.toItem (f : Frame) : CodeItem :=
  .mk f.fname f.fkind f.fline f.findent f.fchildren none none none

/-- `CodeItem.add_child` on an open node. -/
def Frame.addChild (f : Frame) (it : CodeItem) : Frame :=
  Frame.mk f.fname f.fkind f.fline f.findent (f.fchildren.snoc it)

/-- Continue popping the stack with an already-closed item in hand:
    attach it to the next frame down (or to the root list) and keep
    popping while `stack[-1].indent_level >= indent`. -/
def popInto (ind : Nat) (roots : CodeForest) (item : CodeItem) :
    List Frame → CodeForest × List Frame
  | [] => (roots.snoc item, [])
  | f :: fs =>
    let f' := f.addChild item
    if ind ≤ f'.findent then popInto ind roots f'.toItem fs
    else (roots, f' :: fs)

/-- The `while stack and stack[-1].indent_level >= indent: stack.pop()`
    loop of `analyze_text` (the stack's head is `stack[-1]`). -/
def popFrames (ind : Nat) (roots : CodeForest) :
    List Frame → CodeForest × List Frame
  | [] => (roots, [])
  | top :: rest =>
    if ind ≤ top.findent then popInto ind roots top.toItem rest
    else (roots, top :: rest)

/-- The kinds pushed onto the stack:
    `item.item_type in {'class', 'function', 'method'}`. -/
def openKind : Kind → Bool
  | .class_ | .function_ | .method_ => true
  | _ => false

/-- One iteration of the `for line_num, line in enumerate(lines, 1)`
    loop of `analyze_text`. -/
def buildStep (st : CodeForest × List Frame) (nl : Nat × List Char) :
    CodeForest × List Frame :=
  let stripped := pyStrip nl.2
  if stripped.isEmpty || startsHash stripped then st
  else
    let ind := indentLevel nl.2
    let p := popFrames ind st.1 st.2
    let parent_type := p.2.head?.map Frame.fkind
    match parse_line stripped nl.1 ind parent_type nl.2 with
    | none => p
    | some it =>
      if openKind it.item_type then
        (p.1, Frame.mk it.name it.item_type nl.1 ind .nil :: p.2)
      else
        match p.2 with
        | [] => (p.1.snoc it, [])
        | f :: fs => (p.1, f.addChild it :: fs)

/-- The builder state after the whole line loop of `analyze_text`. -/
def buildState (text : String) : CodeForest × List Frame :=
  (enumFrom 1 (splitNl text.data)).foldl buildStep (.nil, [])

/-- The root list `items` of `analyze_text` just before
    `ASTAnalyzer().enhance_items_with_ast(items, text)` is called
    (closing the remaining open frames attaches nothing new: in the
    source every item was already appended to its parent when created;
    `popFrames 0` merely materialises that). -/
def buildItems (text : String) : CodeForest :=
  (popFrames 0 (buildState text).1 (buildState text).2).1

/-- The `ast` node classes distinguished by `_process_ast`. -/
inductive PyKind where
  | classdef | functiondef | asyncfunctiondef | assign | othernode
deriving DecidableEq

/-- One node yielded by `ast.walk(tree)`, as consumed by
    `_process_ast`: its class, `lineno`, `end_lineno`, for an `Assign`
    whose `value` is an `ast.Constant` the text `str(node.value)`
    (`value_repr`), and for a `ClassDef` the result of
    `_extract_bl_idname(node)` (`bl_val`) — the latter two are data of
    the external syntax tree, precomputed here.  On the CPython ≥ 3.8
    runtime hosting this add-on, `end_lineno` is always a positive
    integer for the four statement classes. -/
structure PyAstNode where
  kind : PyKind
  lineno : Nat
  end_lineno : Option Nat
  value_repr : Option String
  bl_val : Option String

/-- The scan loop of `ASTAnalyzer._guess_end_line`: `i` is the 0-based
    index of the head of `rest`; the function returns the index of the
    first non-blank line at indentation ≤ `base`, else `total`
    (`len(lines)`). -/
def guessScan (base : Nat) : Nat → List (List Char) → Nat → Nat
  | _, [], total => total
  | i, l :: ls, total =>
    if (pyStrip l).isEmpty then guessScan base (i + 1) ls total
    else if indentLevel l ≤ base then i
    else guessScan base (i + 1) ls total

/-- `ASTAnalyzer._guess_end_line(item, lines)` (it only reads
    `item.line_number`, passed here directly).  Note it returns the
    0-based index `i` of the dedent line, and `len(lines)` when no
    dedent is found — quirks preserved verbatim. -/
def guess_end_line (line_number : Nat) (lines : List (List Char)) : Nat :=
  let start := line_number - 1
  if lines.length ≤ start then line_number
  else
    guessScan (indentLevel (lines.getD start [])) (start + 1)
      (lines.drop (start + 1)) lines.length

/-- `ASTAnalyzer._get_end_line(node, lines)`: `node.end_lineno` when
    present and truthy.  The fallback branch would raise
    `AttributeError` in CPython (`_guess_end_line` reads
    `item.line_number`, which `ast` nodes do not have); it is
    unreachable for trees produced by `ast.parse` on CPython ≥ 3.8 and
    is modelled as the guess at `node.lineno`. -/
def get_end_line (n : PyAstNode) (lines : List (List Char)) : Nat :=
  match n.end_lineno with
  | some e => if e ≠ 0 then e else guess_end_line n.lineno lines
  | none => guess_end_line n.lineno lines

/-- `ASTAnalyzer._extract_value_preview(value_node, line_text)`:
    `str(value_node.value)[:50]` for an `ast.Constant`, `None`
    otherwise; `line_text` is never used. -/
def extract_value_preview (n : PyAstNode) (_line_text : List Char) : Option String :=
  n.value_repr.map (fun r => String.mk (r.data.take 50))

/- `ASTAnalyzer._find_by_lineno(items, lineno)` followed by a mutation
   of the found item: the source locates the first item in pre-order
   whose `line_number` equals `lineno` and mutates it in place; the
   embedding returns the whole tree with that single item replaced by
   `g item`, plus a flag telling whether a match was found. -/
mutual
def updFirstI (ln : Nat) (g : CodeItem → CodeItem) :
    CodeItem → CodeItem × Bool
  | .mk n k l il ch el bi vp =>
    if l = ln then (g (.mk n k l il ch el bi vp), true)
    else
      match updFirstF ln g ch with
      | (ch', true) => (.mk n k l il ch' el bi vp, true)
      | (_, false) => (.mk n k l il ch el bi vp, false)
def updFirstF (ln : Nat) (g : CodeItem → CodeItem) :
    CodeForest → CodeForest × Bool
  | .nil => (.nil, false)
  | .cons a as =>
    match updFirstI ln g a with
    | (a', true) => (.cons a' as, true)
    | (_, false) =>
      match updFirstF ln g as with
      | (as', fb) => (.cons a as', fb)
end

/-- `ASTAnalyzer._find_by_lineno(items, lineno)` itself (used by the
    uniqueness claims). -/
def find_by_lineno (ln : Nat) : CodeForest → Option CodeItem
  | .nil => none
  | .cons (.mk n k l il ch el bi vp) rest =>
    if l = ln then some (.mk n k l il ch el bi vp)
    else
      match find_by_lineno ln ch with
      | some r => some r
      | none => find_by_lineno ln rest

/-- The item types updated by the `ast.Assign` arm of `_process_ast`
    and treated as single-line by `_fallback_end_lines`:
    `['property', 'variable', 'constant']`. -/
def isEnrichLeafKind : Kind → Bool
  | .property_ | .variable_ | .constant_ => true
  | _ => false

/-- The body of the `for node in ast.walk(tree)` loop of
    `ASTAnalyzer._process_ast`, for one walked node. -/
def process_node (lines : List (List Char)) (items : CodeForest)
    (n : PyAstNode) : CodeForest :=
  match n.kind with
  | .classdef =>
    (updFirstF n.lineno
      (fun it => (it.withEnd (some (get_end_line n lines))).withBl n.bl_val) items).1
  | .functiondef =>
    (updFirstF n.lineno
      (fun it => it.withEnd (some (get_end_line n lines))) items).1
  | .asyncfunctiondef =>
    (updFirstF n.lineno
      (fun it => it.withEnd (some (get_end_line n lines))) items).1
  | .assign =>
    (updFirstF n.lineno
      (fun it =>
        if isEnrichLeafKind it.item_type then
          (it.withEnd (some n.lineno)).withPreview
            (extract_value_preview n (lines.getD (n.lineno - 1) []))
        else it) items).1
  | .othernode => items

/-- `ASTAnalyzer._process_ast(tree, items, lines)`: the walked nodes
    are processed in `ast.walk` order. -/
def process_ast (tree : List PyAstNode) (items : CodeForest)
    (lines : List (List Char)) : CodeForest :=
  tree.foldl (process_node lines) items

/- `ASTAnalyzer._fallback_end_lines(items, lines)`. -/
mutual
def fallbackI (lines : List (List Char)) : CodeItem → CodeItem
  | .mk n k ln il ch el bi vp =>
    let el' := match el with
      | some e => some e
      | none => if isEnrichLeafKind k then some ln else some (guess_end_line ln lines)
    .mk n k ln il (fallbackF lines ch) el' bi vp
def fallbackF (lines : List (List Char)) : CodeForest → CodeForest
  | .nil => .nil
  | .cons a as => .cons (fallbackI lines a) (fallbackF lines as)
end

/-- `ASTAnalyzer.enhance_items_with_ast(items, text)`: `past` is the
    outcome of `ast.parse(text)` — `none` models the `SyntaxError`
    branch, `some tree` the successful walk. -/
def enhance_items_with_ast (items : CodeForest) (text : String)
    (past : Option (List PyAstNode)) : CodeForest :=
  let lines := splitNl text.data
  match past with
  | some tree => process_ast tree items lines
  | none => fallbackF lines items

/-- `CodeAnalyzer.analyze_text(text)`: build the tree from the line
    scan, then enhance it.  The external parser's outcome on `text` is
    the `past` argument. -/
def analyze_text (text : String) (past : Option (List PyAstNode)) : CodeForest :=
  enhance_items_with_ast (buildItems text) text past

/- `CodeRenderer._flatten_items(items)`: pre-order flattening. -/
mutual
def flattenI : CodeItem → List CodeItem
  | .mk n k ln il ch el bi vp => .mk n k ln il ch el bi vp :: flattenF ch
def flattenF : CodeForest → List CodeItem
  | .nil => []
  | .cons a as => flattenI a ++ flattenF as
end

/-- `start <= cursor_line <= end` with
    `end = item.end_line or item.line_number` (Python truthiness: a
    `None` or `0` end line falls back to the start line). -/
def spanContains (cursor : Nat) (it : CodeItem) : Bool :=
  let e := match it.end_line with
    | some v => if v ≠ 0 then v else it.line_number
    | none => it.line_number
  it.line_number ≤ cursor && cursor ≤ e

/-- `item.item_type in {"function", "method"}`. -/
def isFnKind : Kind → Bool
  | .function_ | .method_ => true
  | _ => false

/-- `CodeRenderer._find_active_function(items, cursor_line)`: the first
    function/method in the pre-order flattening whose span contains the
    cursor ( `(None, None)` is modelled as `none`). -/
def find_active_function (items : CodeForest) (cursor_line : Nat) :
    Option (String × Nat) :=
  ((flattenF items).find?
      (fun it => isFnKind it.item_type && spanContains cursor_line it)).map
    (fun it => (it.name, it.line_number))

/-- `CodeRenderer._find_active_class(items, cursor_line)`: the source
    iterates over the TOP-LEVEL items only (no flattening). -/
def find_active_class (items : CodeForest) (cursor_line : Nat) : Option String :=
  (items.toList.find?
      (fun it => (it.item_type == Kind.class_) && spanContains cursor_line it)).map
    (fun it => it.name)

/- `CodeRenderer._item_matches_search(item, search_text)` and the
   `any(...)` over a children list. -/
mutual
def item_matches_search (s : String) : CodeItem → Bool
  | .mk n _ _ _ ch _ _ _ => lowerInfix s n || forest_matches s ch
def forest_matches (s : String) : CodeForest → Bool
  | .nil => false
  | .cons a as => item_matches_search s a || forest_matches s as
end

/-- The per-kind visibility toggles of `CODE_MAP_PG_Properties`, in
    source declaration order. -/
structure NavData where
  show_classes : Bool
  show_methods : Bool
  show_properties : Bool
  show_functions : Bool
  show_variables : Bool
  show_constants : Bool

/-- The `is_visible` closure inside `CodeRenderer.filter_items`.
    `parent_type` is the kind of `item.parent` (or `none`).  Note the
    fall-through: an `item_type` of `'method'` matches none of the
    `if` branches and reaches `return True`, so methods are visible
    regardless of `show_methods`; the `show_methods` branch only fires
    for items whose `item_type` is the string `'function'` while their
    parent is a class or function. -/
def is_visible (nav : NavData) (parent_type : Option Kind) (k : Kind) : Bool :=
  match k with
  | .class_ => nav.show_classes
  | .function_ =>
    if parent_type = some Kind.class_ ∨ parent_type = some Kind.function_
    then nav.show_methods else nav.show_functions
  | .property_ => nav.show_properties
  | .variable_ => nav.show_variables
  | .constant_ => nav.show_constants
  | .method_ => true

/-- The value returned by the `filter_recursive` closure of
    `CodeRenderer.filter_items` (the rendered forest).  `pk` is the
    kind of the parent of the items being filtered.  Since
    `new_item = item` aliases, the returned nodes are the cached nodes
    themselves; `filterPost` below gives the state the input forest is
    left in. -/
def filterRec (nav : NavData) (s : String) (pk : Option Kind) :
    CodeForest → CodeForest
  | .nil => .nil
  | .cons (.mk n k ln il ch el bi vp) rest =>
    if is_visible nav pk k && (lowerInfix s n || forest_matches s ch) then
      .cons (.mk n k ln il (filterRec nav s (some k) ch) el bi vp)
        (filterRec nav s pk rest)
    else filterRec nav s pk rest

/-- The state of the INPUT forest after `filter_items` ran on it: every
    node that passed both tests had its `children` list reassigned to
    the recursively filtered list (because `new_item = item` is an
    alias, not a copy); skipped nodes keep their subtree untouched. -/
def filterPost (nav : NavData) (s : String) (pk : Option Kind) :
    CodeForest → CodeForest
  | .nil => .nil
  | .cons (.mk n k ln il ch el bi vp) rest =>
    if is_visible nav pk k && (lowerInfix s n || forest_matches s ch) then
      .cons (.mk n k ln il (filterRec nav s (some k) ch) el bi vp)
        (filterPost nav s pk rest)
    else .cons (.mk n k ln il ch el bi vp) (filterPost nav s pk rest)

/-- `CodeRenderer.filter_items(items, search_text, nav_data)`: first
    component the returned (rendered) forest, second component the
    state the cached input forest is left in after the call's
    mutations. -/
def filter_items (items : CodeForest) (search_text : String) (nav : NavData) :
    CodeForest × CodeForest :=
  (filterRec nav search_text none items, filterPost nav search_text none items)

/-- The mutable fields of the `NavigationState` singleton. -/
structure NavState where
  code_items : CodeForest
  expanded_items : List String
  current_text_name : String
  last_text_hash : Int

/-- The operations other UI callbacks may interleave between two
    analyzer runs: a rebuild stored via `update_code_items`, a
    `filter_items` call (which mutates the cached tree in place), and
    `toggle_expansion`. -/
inductive NavOp where
  | analyzeOp (text : String) (past : Option (List PyAstNode))
  | filterOp (search_text : String) (nav : NavData)
  | toggleOp (item_path : String)

/-- Effect of one operation on the singleton state. -/
def applyOp (s : NavState) : NavOp → NavState
  | .analyzeOp t p =>
    NavState.mk (analyze_text t p) s.expanded_items s.current_text_name s.last_text_hash
  | .filterOp q nav =>
    NavState.mk (filter_items s.code_items q nav).2 s.expanded_items
      s.current_text_name s.last_text_hash
  | .toggleOp path =>
    if path ∈ s.expanded_items then
      NavState.mk s.code_items (s.expanded_items.erase path) s.current_text_name
        s.last_text_hash
    else
      NavState.mk s.code_items (path :: s.expanded_items) s.current_text_name
        s.last_text_hash

def applyOps (s : NavState) : List NavOp → NavState
  | [] => s
  | op :: ops => applyOps (applyOp s op) ops

/-- The tree an `analyze_text` call returns when invoked while the
    singleton state is `s`.  Per the source, `CodeAnalyzer.analyze_text`
    reads none of the mutable singleton fields (`CodePatterns` holds
    only pre-compiled constant patterns; `ASTAnalyzer` and
    `CodeAnalyzer` keep no per-call state; `NavigationState` is not
    consulted), so the result does not depend on `s`. -/
def analyze_text_in_state (_s : NavState) (text : String)
    (past : Option (List PyAstNode)) : CodeForest :=
  analyze_text text past

/- ------------------------------------------------------------------ -/
/- Specification-side definitions (written from the spec's words, to   -/
/- be compared with the source-derived functions above).               -/
/- ------------------------------------------------------------------ -/

/-- Line numbers of all nodes of a forest, in pre-order. -/
def linesF (f : CodeForest) : List Nat := (flattenF f).map CodeItem.line_number

/-- Every node of the forest (all depths) has a non-`None` `end_line`. -/
def allEndSomeF (f : CodeForest) : Bool :=
  (flattenF f).all (fun it => it.end_line.isSome)

/- No variable/constant node anywhere in the forest. -/
def isVcKind : Kind → Bool
  | .variable_ | .constant_ => true
  | _ => false

def noVcF : CodeForest → Bool
  | .nil => true
  | .cons (.mk _ k _ _ ch _ _ _) rest => !isVcKind k && noVcF ch && noVcF rest

/-- Top-level items may be variables/constants, but no node strictly
    below the roots is. -/
def vcRootOkF : CodeForest → Bool
  | .nil => true
  | .cons (.mk _ _ _ _ ch _ _ _) rest => noVcF ch && vcRootOkF rest

/-- A child of kind `'function'` never sits under a class or function
    parent (`pk` is the parent kind of the forest's top items). -/
def fcompat (pk : Option Kind) (k : Kind) : Bool :=
  !(k == Kind.function_) || !(pk == some Kind.class_ || pk == some Kind.function_)

def fpOkF (pk : Option Kind) : CodeForest → Bool
  | .nil => true
  | .cons (.mk _ k _ _ ch _ _ _) rest =>
    fcompat pk k && fpOkF (some k) ch && fpOkF pk rest

/-- Strictly ascending list of naturals. -/
def ascLines : List Nat → Bool
  | [] => true
  | [_] => true
  | a :: b :: r => Nat.blt a b && ascLines (b :: r)

/-- Every node's `children` list is ordered by `line_number` strictly
    ascending. -/
def sortedNodesF : CodeForest → Bool
  | .nil => true
  | .cons (.mk _ _ _ _ ch _ _ _) rest =>
    ascLines (ch.toList.map CodeItem.line_number) && sortedNodesF ch && sortedNodesF rest

/-- Every node's `line_number` is strictly less than the `line_number`
    of each of its descendants. -/
def parentLtF : CodeForest → Bool
  | .nil => true
  | .cons (.mk _ _ ln _ ch _ _ _) rest =>
    (linesF ch).all (fun d => Nat.blt ln d) && parentLtF ch && parentLtF rest

/-- Spec's per-kind visibility: "a node is visible only if its kind's
    toggle is enabled", amended by the counterexample: method nodes are
    always visible (the methods toggle is never consulted for them). -/
def specVisible (nav : NavData) : Kind → Bool
  | .class_ => nav.show_classes
  | .method_ => true
  | .function_ => nav.show_functions
  | .property_ => nav.show_properties
  | .variable_ => nav.show_variables
  | .constant_ => nav.show_constants

/- Spec: "the search string is a case-insensitive substring of its own
   name OR of any descendant's name". -/
mutual
def specNameMatches (s : String) : CodeItem → Bool
  | .mk n _ _ _ ch _ _ _ => lowerInfix s n || specForestMatches s ch
def specForestMatches (s : String) : CodeForest → Bool
  | .nil => false
  | .cons a as => specNameMatches s a || specForestMatches s as
end

/-- Spec's filtering rule: keep a node iff its kind's toggle is enabled
    (with the method amendment) and it or a descendant matches the
    search; the children of a kept node are filtered recursively, so a
    hidden node prunes its whole subtree. -/
def specFilter (nav : NavData) (s : String) : CodeForest → CodeForest
  | .nil => .nil
  | .cons (.mk n k ln il ch el bi vp) rest =>
    if specVisible nav k && specNameMatches s (.mk n k ln il ch el bi vp) then
      .cons (.mk n k ln il (specFilter nav s ch) el bi vp) (specFilter nav s rest)
    else specFilter nav s rest

/-- The element with the smallest `line_number` (first such on ties). -/
def minLineItem (l : List CodeItem) : Option CodeItem :=
  l.foldl
    (fun acc it =>
      match acc with
      | none => some it
      | some b => if it.line_number < b.line_number then some it else some b)
    none

/-- The element with the largest `line_number` (first such on ties). -/
def maxLineItem (l : List CodeItem) : Option CodeItem :=
  l.foldl
    (fun acc it =>
      match acc with
      | none => some it
      | some b => if b.line_number < it.line_number then some it else some b)
    none

/-- Spec side of the amended active-function rule: the function/method
    node with the SMALLEST `start_line` (i.e. the outermost) among
    those whose span contains the cursor. -/
def specActiveFunction (items : CodeForest) (cursor : Nat) : Option (String × Nat) :=
  (minLineItem ((flattenF items).filter
      (fun it => isFnKind it.item_type && spanContains cursor it))).map
    (fun it => (it.name, it.line_number))

/-- Spec side of the amended active-class rule: the TOP-LEVEL class
    with the smallest `start_line` whose span contains the cursor. -/
def specActiveClass (items : CodeForest) (cursor : Nat) : Option String :=
  (minLineItem (items.toList.filter
      (fun it => (it.item_type == Kind.class_) && spanContains cursor it))).map
    (fun it => it.name)

/-- The claim's (unamended) active-function rule, for the
    counterexample: the INNERMOST function/method whose span contains
    the cursor — for the nested spans produced by the analyzer this is
    the matching node with the largest `start_line`. -/
def claimInnermostFunction (items : CodeForest) (cursor : Nat) :
    Option (String × Nat) :=
  (maxLineItem ((flattenF items).filter
      (fun it => isFnKind it.item_type && spanContains cursor it))).map
    (fun it => (it.name, it.line_number))

/- ------------------------------------------------------------------ -/
/- Auxiliary definitions used by the invariant proofs.                 -/
/- ------------------------------------------------------------------ -/

/-- Pre-order line numbers of the subtree an open frame stands for. -/
def stackSeg (f : Frame) : List Nat := f.fline :: linesF f.fchildren

/-- Pre-order line numbers contributed by the open frames, bottom of
    the stack first (the head of the list is the top frame). -/
def stackLines : List Frame → List Nat
  | [] => []
  | f :: fs => stackLines fs ++ stackSeg f

/-- Pre-order line numbers of the tree the builder state denotes (the
    tree obtained by closing all open frames now). -/
def stateLines (st : CodeForest × List Frame) : List Nat :=
  linesF st.1 ++ stackLines st.2

/-- Structural facts maintained for every open frame: it is an open
    kind, no variable/constant node sits anywhere below it, and no
    `'function'`-kind child sits under a class/function parent inside
    it; `below` is the kind of the frame underneath it on the stack. -/
def frameOk (below : Option Kind) (f : Frame) : Prop :=
  openKind f.fkind = true ∧ noVcF f.fchildren = true ∧
  fpOkF (some f.fkind) f.fchildren = true ∧ fcompat below f.fkind = true

def stackOk : List Frame → Prop
  | [] => True
  | f :: fs => frameOk (fs.head?.map Frame.fkind) f ∧ stackOk fs

/-- The loop invariant of the builder: the denoted pre-order line list
    is strictly increasing and bounded by the next line number, and the
    structural facts hold for the closed roots and the open frames. -/
def BuildInv (n : Nat) (st : CodeForest × List Frame) : Prop :=
  (stateLines st).Pairwise (· < ·) ∧ (∀ x ∈ stateLines st, x < n) ∧
  vcRootOkF st.1 = true ∧ fpOkF none st.1 = true ∧ stackOk st.2

/-- Facts about a closed item travelling down the stack in `popInto`. -/
def pendOk (stack : List Frame) (it : CodeItem) : Prop :=
  openKind it.item_type = true ∧ noVcF it.children = true ∧
  fpOkF (some it.item_type) it.children = true ∧
  fcompat (stack.head?.map Frame.fkind) it.item_type = true

/- Skeleton of a tree: the fields the enrichment pass can never change
   (`item_type`, `line_number`, and the tree structure).  Equality of
   skeletons lets the builder invariants transfer to the enriched
   tree. -/
mutual
def skelI : CodeItem → CodeItem
  | .mk _ k ln _ ch _ _ _ => .mk "" k ln 0 (skelF ch) none none none
def skelF : CodeForest → CodeForest
  | .nil => .nil
  | .cons a as => .cons (skelI a) (skelF as)
end

/- ------------------------------------------------------------------ -/
/- Concrete inputs used by the counterexamples.  Each `...Ast` list    -/
/- records the nodes `ast.walk` yields on the accompanying text, in    -/
/- walk (breadth-first) order; nodes of classes other than ClassDef /  -/
/- FunctionDef / AsyncFunctionDef / Assign are collapsed to            -/
/- `othernode` entries (or omitted), which `_process_ast` skips        -/
/- exactly as the source's isinstance checks do.                       -/
/- ------------------------------------------------------------------ -/

/-- The four-line example of the spec (scenario 1). -/
def exText : String := "class Foo:\n    def bar(self):\n        pass\nX = 1"

/-- `ast.walk` on `exText`: Module (skipped), ClassDef `Foo` lines
    1–3, Assign `X = 1` line 4 with constant value `1`
    (`str(1) == "1"`), FunctionDef `bar` lines 2–3, then arguments /
    Pass / Name / Constant nodes (skipped). -/
def exAst : List PyAstNode :=
  [PyAstNode.mk .classdef 1 (some 3) none none,
   PyAstNode.mk .assign 4 (some 4) (some "1") none,
   PyAstNode.mk .functiondef 2 (some 3) none none]

/-- The tree the claim describes for `exText` (with `X` a VARIABLE). -/
def claimC6holds (f : CodeForest) : Bool :=
  match f with
  | .cons a (.cons b .nil) =>
    a.name == "Foo" && (a.item_type == Kind.class_) && a.line_number == 1 &&
    a.end_line == some 3 &&
    (match a.children with
     | .cons c .nil =>
       c.name == "bar" && (c.item_type == Kind.method_) && c.line_number == 2 &&
       c.end_line == some 3
     | _ => false) &&
    b.name == "X" && (b.item_type == Kind.variable_) && b.line_number == 4 &&
    b.end_line == some 4
  | _ => false

/-- A module-level annotated property; parses successfully. -/
def annText : String := "x: int"

/-- `ast.walk "x: int"`: Module (skipped), AnnAssign line 1 (not one of
    the four handled classes), two Name nodes (skipped). -/
def annAst : List PyAstNode := [PyAstNode.mk .othernode 1 (some 1) none none]

/-- A function with a nested function; parses successfully. -/
def nestedText : String := "def f():\n    def g():\n        pass"

/-- `ast.walk` on `nestedText`: Module, FunctionDef `f` lines 1–3,
    FunctionDef `g` lines 2–3, arguments / Pass (skipped). -/
def nestedAst : List PyAstNode :=
  [PyAstNode.mk .functiondef 1 (some 3) none none,
   PyAstNode.mk .functiondef 2 (some 3) none none]

/-- A class with one method; parses successfully. -/
def clsMethText : String := "class Foo:\n    def bar(self):\n        pass"

def clsMethAst : List PyAstNode :=
  [PyAstNode.mk .classdef 1 (some 3) none none,
   PyAstNode.mk .functiondef 2 (some 3) none none]

/-- All toggles on except `show_methods`. -/
def navNoMethods : NavData := NavData.mk true false true true true true

/-- A class with one annotated property; parses successfully. -/
def clsPropText : String := "class Foo:\n    x: int"

/-- `ast.walk`: Module, ClassDef `Foo` lines 1–2, AnnAssign line 2
    (not handled), Name nodes (skipped). -/
def clsPropAst : List PyAstNode :=
  [PyAstNode.mk .classdef 1 (some 2) none none,
   PyAstNode.mk .othernode 2 (some 2) none none]

/-- All toggles on except `show_properties`. -/
def navNoProps : NavData := NavData.mk true true false true true true

/-- Sixty `'a'` characters: `str()` of the Python string assigned in
    `longText` below. -/
def longRepr : String := "aaaaaaaaaaaaaaaaaaaaaaaaaaaaaaaaaaaaaaaaaaaaaaaaaaaaaaaaaaaa"

/-- `x = "<60 a's>"`; the right-hand-side TEXT is 62 characters
    (including the quotes), the assigned string VALUE is 60
    characters. -/
def longText : String :=
  "x = \"aaaaaaaaaaaaaaaaaaaaaaaaaaaaaaaaaaaaaaaaaaaaaaaaaaaaaaaaaaaa\""

/-- `ast.walk` on `longText`: Module, Assign line 1 with an
    `ast.Constant` string value whose `str()` is `longRepr`, Name /
    Constant (skipped). -/
def longAst : List PyAstNode :=
  [PyAstNode.mk .assign 1 (some 1) (some longRepr) none]

/-- What the claim says a just-set `value_preview` must be: the RHS
    text capped at 50 characters with an ellipsis marker appended
    exactly when the text exceeds 50 characters. -/
def claimPreviewOf (rhsText : String) : String :=
  String.mk (rhsText.data.take 50 ++
    (if 50 < rhsText.data.length then ['.', '.', '.'] else []))

/- ------------------------------------------------------------------ -/
/- Basic lemmas about the tree operations.                             -/
/- ------------------------------------------------------------------ -/

theorem flattenI_eq (it : CodeItem) : flattenI it = it :: flattenF it.children := by
  cases it
  rfl

theorem linesF_nil : linesF .nil = [] := rfl

theorem linesF_cons (a : CodeItem) (as : CodeForest) :
    linesF (.cons a as) = (a.line_number :: linesF a.children) ++ linesF as := by
  cases a
  simp [linesF, flattenF, flattenI, CodeItem.line_number, CodeItem.children]

theorem flattenF_snoc (it : CodeItem) :
    ∀ f : CodeForest, flattenF (f.snoc it) = flattenF f ++ flattenI it
  | .nil => by simp [CodeForest.snoc, flattenF]
  | .cons a as => by
    simp [CodeForest.snoc, flattenF, flattenF_snoc it as]

theorem linesF_snoc (f : CodeForest) (it : CodeItem) :
    linesF (f.snoc it) = linesF f ++ (it.line_number :: linesF it.children) := by
  simp [linesF, flattenF_snoc, flattenI_eq]

theorem toList_snoc (it : CodeItem) :
    ∀ f : CodeForest, (f.snoc it).toList = f.toList ++ [it]
  | .nil => rfl
  | .cons a as => by simp [CodeForest.snoc, CodeForest.toList, toList_snoc it as]

theorem open_not_vc {k : Kind} (h : openKind k = true) : isVcKind k = false := by
  cases k <;> simp_all [openKind, isVcKind]

theorem noVcF_snoc (it : CodeItem) :
    ∀ f : CodeForest,
      noVcF (f.snoc it) =
        (noVcF f && (!isVcKind it.item_type && noVcF it.children))
  | .nil => by
    cases it
    simp [CodeForest.snoc, noVcF, CodeItem.item_type, CodeItem.children]
  | .cons a as => by
    cases a
    simp [CodeForest.snoc, noVcF, noVcF_snoc it as, Bool.and_assoc]

theorem vcRootOkF_snoc (it : CodeItem) :
    ∀ f : CodeForest,
      vcRootOkF (f.snoc it) = (vcRootOkF f && noVcF it.children)
  | .nil => by
    cases it
    simp [CodeForest.snoc, vcRootOkF, noVcF, CodeItem.children]
  | .cons a as => by
    cases a
    simp [CodeForest.snoc, vcRootOkF, vcRootOkF_snoc it as, Bool.and_assoc]

theorem fpOkF_snoc (it : CodeItem) (pk : Option Kind) :
    ∀ f : CodeForest,
      fpOkF pk (f.snoc it) =
        (fpOkF pk f &&
          (fcompat pk it.item_type && fpOkF (some it.item_type) it.children))
  | .nil => by
    cases it
    simp [CodeForest.snoc, fpOkF, CodeItem.item_type, CodeItem.children]
  | .cons a as => by
    cases a
    simp [CodeForest.snoc, fpOkF, fpOkF_snoc it pk as, Bool.and_assoc]

theorem assignPreview_eq (full : List Char) (p : String)
    (h : assignPreview full = some p) : p = previewOf full := by
  unfold assignPreview at h
  split at h
  · exact (Option.some.inj h).symm
  · exact absurd h (by simp)

theorem parseVarCase_spec (l : List Char) (n i : Nat) (pt : Option Kind)
    (full : List Char) (it : CodeItem)
    (h : parseVarCase l n i pt full = some it) :
    it.item_type = .variable_ ∧ it.line_number = n ∧ it.indent_level = i ∧
    it.children = .nil ∧ pt = none ∧ pyIsUpper it.name = false ∧
    it.value_preview = assignPreview full := by
  unfold parseVarCase at h
  split at h
  next nm heq =>
    split at h
    · exact absurd h (by simp)
    next hu =>
      have hi := Option.some.inj h
      subst hi
      have hpt : pt = none := by
        by_cases hpt : pt = none
        · exact hpt
        · rw [if_neg hpt] at heq; exact absurd heq (by simp)
      exact ⟨rfl, rfl, rfl, rfl, hpt, by simpa [CodeItem.name] using hu, rfl⟩
  next => exact absurd h (by simp)

theorem parse_line_spec (l : List Char) (n i : Nat) (pt : Option Kind)
    (full : List Char) (it : CodeItem)
    (h : parse_line l n i pt full = some it) :
    it.line_number = n ∧ it.indent_level = i ∧ it.children = .nil ∧
    (it.item_type = .function_ → ¬(pt = some Kind.class_ ∨ pt = some Kind.function_)) ∧
    (it.item_type = .constant_ → pt = none ∧ pyIsUpper it.name = true) ∧
    (it.item_type = .variable_ → pt = none ∧ pyIsUpper it.name = false) ∧
    (∀ p, it.value_preview = some p → p = previewOf full) := by
  unfold parse_line at h
  split at h
  next nm heq =>
    have hi := Option.some.inj h
    subst hi
    exact ⟨rfl, rfl, rfl, by simp [CodeItem.item_type], by simp [CodeItem.item_type],
      by simp [CodeItem.item_type], by simp [CodeItem.value_preview]⟩
  next =>
    split at h
    next nm heq =>
      by_cases hk : (pt = some Kind.class_ ∨ pt = some Kind.function_)
      · rw [if_pos hk] at h
        have hi := Option.some.inj h
        subst hi
        exact ⟨rfl, rfl, rfl, by simp [CodeItem.item_type], by simp [CodeItem.item_type],
          by simp [CodeItem.item_type], by simp [CodeItem.value_preview]⟩
      · rw [if_neg hk] at h
        have hi := Option.some.inj h
        subst hi
        exact ⟨rfl, rfl, rfl, fun _ => hk, by simp [CodeItem.item_type],
          by simp [CodeItem.item_type], by simp [CodeItem.value_preview]⟩
    next =>
      split at h
      next nm heq =>
        have hi := Option.some.inj h
        subst hi
        exact ⟨rfl, rfl, rfl, by simp [CodeItem.item_type], by simp [CodeItem.item_type],
          by simp [CodeItem.item_type], by simp [CodeItem.value_preview]⟩
      next =>
        split at h
        next nm heq =>
          have hpt : pt = none := by
            by_cases hpt : pt = none
            · exact hpt
            · rw [if_neg hpt] at heq; exact absurd heq (by simp)
          split at h
          next hu =>
            have hi := Option.some.inj h
            subst hi
            refine ⟨rfl, rfl, rfl, by simp [CodeItem.item_type], ?_,
              by simp [CodeItem.item_type], ?_⟩
            · exact fun _ => ⟨hpt, by simpa [CodeItem.name] using hu⟩
            · intro p hp
              exact assignPreview_eq full p (by simpa [CodeItem.value_preview] using hp)
          next hu =>
            obtain ⟨hk, hln, hil, hch, hpn, hup, hvp⟩ :=
              parseVarCase_spec l n i pt full it h
            refine ⟨hln, hil, hch, by simp [hk], by simp [hk],
              fun _ => ⟨hpn, hup⟩, ?_⟩
            intro p hp
            exact assignPreview_eq full p (hvp ▸ hp)
        next =>
          obtain ⟨hk, hln, hil, hch, hpn, hup, hvp⟩ :=
            parseVarCase_spec l n i pt full it h
          refine ⟨hln, hil, hch, by simp [hk], by simp [hk],
            fun _ => ⟨hpn, hup⟩, ?_⟩
          intro p hp
          exact assignPreview_eq full p (hvp ▸ hp)

theorem pairwise_append_singleton {l : List Nat} {n : Nat}
    (h : l.Pairwise (· < ·)) (hb : ∀ x ∈ l, x < n) :
    (l ++ [n]).Pairwise (· < ·) := by
  rw [List.pairwise_append]
  exact ⟨h, List.pairwise_singleton _ _, fun a ha b hb' => by
    simp at hb'; subst hb'; exact hb a ha⟩

theorem popInto_spec (ind : Nat) :
    ∀ (stack : List Frame) (roots : CodeForest) (item : CodeItem),
      vcRootOkF roots = true → fpOkF none roots = true →
      stackOk stack → pendOk stack item →
      stateLines (popInto ind roots item stack) =
        linesF roots ++ stackLines stack ++
          (item.line_number :: linesF item.children) ∧
      vcRootOkF (popInto ind roots item stack).1 = true ∧
      fpOkF none (popInto ind roots item stack).1 = true ∧
      stackOk (popInto ind roots item stack).2
  | [], roots, item, hv, hf, _, hp => by
    obtain ⟨hpo, hpv, hpf, hpc⟩ := hp
    refine ⟨?_, ?_, ?_, trivial⟩
    · simp [popInto, stateLines, stackLines, linesF_snoc]
    · simp [popInto, vcRootOkF_snoc, hv, hpv]
    · have hc : fcompat none item.item_type = true := by simpa using hpc
      simp [popInto, fpOkF_snoc, hf, hc, hpf]
  | f :: fs, roots, item, hv, hf, hs, hp => by
    obtain ⟨hfOk, hsOk⟩ := hs
    obtain ⟨hpo, hpv, hpf, hpc⟩ := hp
    obtain ⟨h1, h2, h3, h4⟩ := hfOk
    have hpc' : fcompat (some f.fkind) item.item_type = true := by
      simpa using hpc
    have hq2 : noVcF (f.addChild item).fchildren = true := by
      simp [Frame.addChild, noVcF_snoc, h2, hpv, open_not_vc hpo]
    have hq3 : fpOkF (some (f.addChild item).fkind) (f.addChild item).fchildren = true := by
      simp [Frame.addChild, fpOkF_snoc, h3, hpf, hpc']
    have hq : frameOk (fs.head?.map Frame.fkind) (f.addChild item) := by
      exact ⟨by simpa [Frame.addChild] using h1, hq2, hq3, by simpa [Frame.addChild] using h4⟩
    by_cases hle : ind ≤ f.findent
    · have hpend : pendOk fs (f.addChild item).toItem := by
        refine ⟨?_, ?_, ?_, ?_⟩
        · simpa [Frame.toItem, Frame.addChild, CodeItem.item_type] using h1
        · simpa [Frame.toItem, CodeItem.children] using hq2
        · simpa [Frame.toItem, Frame.addChild, CodeItem.item_type, CodeItem.children] using hq3
        · simpa [Frame.toItem, Frame.addChild, CodeItem.item_type] using h4
      have hrec := popInto_spec ind fs roots (f.addChild item).toItem hv hf hsOk hpend
      have hstep : popInto ind roots item (f :: fs) =
          popInto ind roots (f.addChild item).toItem fs := by
        simp only [popInto]
        rw [if_pos (by simpa [Frame.addChild] using hle)]
      rw [hstep]
      refine ⟨?_, hrec.2.1, hrec.2.2.1, hrec.2.2.2⟩
      rw [hrec.1]
      simp [Frame.toItem, Frame.addChild, CodeItem.line_number, CodeItem.children,
        linesF_snoc, stackLines, stackSeg]
    · have hstep : popInto ind roots item (f :: fs) = (roots, f.addChild item :: fs) := by
        simp only [popInto]
        rw [if_neg (by simpa [Frame.addChild] using hle)]
      rw [hstep]
      refine ⟨?_, hv, hf, hq, hsOk⟩
      simp [stateLines, stackLines, stackSeg, Frame.addChild, linesF_snoc]

theorem popFrames_spec (ind : Nat) (stack : List Frame) (roots : CodeForest)
    (hv : vcRootOkF roots = true) (hf : fpOkF none roots = true)
    (hs : stackOk stack) :
    stateLines (popFrames ind roots stack) = linesF roots ++ stackLines stack ∧
    vcRootOkF (popFrames ind roots stack).1 = true ∧
    fpOkF none (popFrames ind roots stack).1 = true ∧
    stackOk (popFrames ind roots stack).2 := by
  cases stack with
  | nil => exact ⟨by simp [popFrames, stateLines, stackLines], hv, hf, trivial⟩
  | cons top rest =>
    obtain ⟨htOk, hsOk⟩ := hs
    by_cases hle : ind ≤ top.findent
    · have hpend : pendOk rest top.toItem := by
        obtain ⟨h1, h2, h3, h4⟩ := htOk
        exact ⟨by simpa [Frame.toItem, CodeItem.item_type] using h1,
          by simpa [Frame.toItem, CodeItem.children] using h2,
          by simpa [Frame.toItem, CodeItem.item_type, CodeItem.children] using h3,
          by simpa [Frame.toItem, CodeItem.item_type] using h4⟩
      have hstep : popFrames ind roots (top :: rest) = popInto ind roots top.toItem rest := by
        simp only [popFrames]
        rw [if_pos hle]
      have hrec := popInto_spec ind rest roots top.toItem hv hf hsOk hpend
      rw [hstep]
      refine ⟨?_, hrec.2.1, hrec.2.2.1, hrec.2.2.2⟩
      rw [hrec.1]
      simp [Frame.toItem, CodeItem.line_number, CodeItem.children, stackLines, stackSeg]
    · have hstep : popFrames ind roots (top :: rest) = (roots, top :: rest) := by
        simp only [popFrames]
        rw [if_neg hle]
      rw [hstep]
      exact ⟨rfl, hv, hf, htOk, hsOk⟩

theorem popInto_zero_snd (roots : CodeForest) :
    ∀ (stack : List Frame) (item : CodeItem),
      (popInto 0 roots item stack).2 = []
  | [], _ => rfl
  | f :: fs, item => by
    have : popInto 0 roots item (f :: fs) =
        popInto 0 roots (f.addChild item).toItem fs := by
      simp only [popInto]
      rw [if_pos (Nat.zero_le _)]
    rw [this]
    exact popInto_zero_snd roots fs (f.addChild item).toItem

theorem popFrames_zero_snd (roots : CodeForest) (stack : List Frame) :
    (popFrames 0 roots stack).2 = [] := by
  cases stack with
  | nil => rfl
  | cons top rest =>
    have : popFrames 0 roots (top :: rest) = popInto 0 roots top.toItem rest := by
      simp only [popFrames]
      rw [if_pos (Nat.zero_le _)]
    rw [this]
    exact popInto_zero_snd roots rest top.toItem

theorem fcompat_none (k : Kind) : fcompat none k = true := by
  simp [fcompat]

theorem fcompat_of_not_fn {pk : Option Kind} {k : Kind} (hk : ¬k = Kind.function_) :
    fcompat pk k = true := by
  simp [fcompat, hk]

theorem fcompat_of_imp {pk : Option Kind} {k : Kind}
    (h : k = Kind.function_ → ¬(pk = some Kind.class_ ∨ pk = some Kind.function_)) :
    fcompat pk k = true := by
  by_cases hk : k = Kind.function_
  · have hn := h hk
    push_neg at hn
    simp [fcompat, hn.1, hn.2]
  · exact fcompat_of_not_fn hk

theorem pairwise_bound_step {l l' : List Nat} {n : Nat}
    (hEq : l' = l ++ [n]) (hpw : l.Pairwise (· < ·)) (hbd : ∀ x ∈ l, x < n) :
    l'.Pairwise (· < ·) ∧ ∀ x ∈ l', x < n + 1 := by
  subst hEq
  refine ⟨pairwise_append_singleton hpw hbd, ?_⟩
  intro x hx
  rcases List.mem_append.mp hx with hx | hx
  · exact Nat.lt_succ_of_lt (hbd x hx)
  · simp at hx
    omega

theorem buildStep_inv (n : Nat) (line : List Char) (st : CodeForest × List Frame)
    (h : BuildInv n st) : BuildInv (n + 1) (buildStep st (n, line)) := by
  obtain ⟨hpw, hbd, hvr, hfp, hsk⟩ := h
  have hmono : BuildInv (n + 1) st :=
    ⟨hpw, fun x hx => Nat.lt_succ_of_lt (hbd x hx), hvr, hfp, hsk⟩
  have hP := popFrames_spec (indentLevel line) st.2 st.1 hvr hfp hsk
  have hPlines : stateLines (popFrames (indentLevel line) st.1 st.2) = stateLines st := hP.1
  have hPpw : (stateLines (popFrames (indentLevel line) st.1 st.2)).Pairwise (· < ·) := by
    rw [hPlines]; exact hpw
  have hPbd : ∀ x ∈ stateLines (popFrames (indentLevel line) st.1 st.2), x < n := by
    rw [hPlines]; exact hbd
  unfold buildStep
  dsimp only
  split
  · exact hmono
  · cases hm : parse_line (pyStrip line) n (indentLevel line)
      ((popFrames (indentLevel line) st.1 st.2).2.head?.map Frame.fkind) line with
    | none =>
      simp only [hm]
      exact ⟨hPpw, fun x hx => Nat.lt_succ_of_lt (hPbd x hx), hP.2.1, hP.2.2.1, hP.2.2.2⟩
    | some it =>
      obtain ⟨hln, hil, hch, hfn, hconst, hvar, _⟩ := parse_line_spec _ _ _ _ _ _ hm
      simp only [hm]
      split
      next hopen =>
        have hEq : stateLines ((popFrames (indentLevel line) st.1 st.2).1,
            Frame.mk it.name it.item_type n (indentLevel line) .nil ::
              (popFrames (indentLevel line) st.1 st.2).2) =
            stateLines (popFrames (indentLevel line) st.1 st.2) ++ [n] := by
          simp [stateLines, stackLines, stackSeg, linesF_nil]
        obtain ⟨hpw', hbd'⟩ := pairwise_bound_step hEq hPpw hPbd
        refine ⟨hpw', hbd', hP.2.1, hP.2.2.1, ?_⟩
        exact ⟨⟨hopen, rfl, rfl, fcompat_of_imp hfn⟩, hP.2.2.2⟩
      next hopen =>
        have hnotfn : ¬it.item_type = Kind.function_ := by
          intro hk
          rw [hk] at hopen
          simp [openKind] at hopen
        cases hstk : (popFrames (indentLevel line) st.1 st.2).2 with
        | nil =>
          have hEq : stateLines ((popFrames (indentLevel line) st.1 st.2).1.snoc it,
              ([] : List Frame)) =
              stateLines (popFrames (indentLevel line) st.1 st.2) ++ [n] := by
            simp [stateLines, stackLines, hstk, linesF_snoc, hln, hch, linesF_nil]
          obtain ⟨hpw', hbd'⟩ := pairwise_bound_step hEq hPpw hPbd
          refine ⟨hpw', hbd', ?_, ?_, trivial⟩
          · rw [vcRootOkF_snoc, hP.2.1, hch]
            rfl
          · rw [fpOkF_snoc, hP.2.2.1, fcompat_none, hch]
            rfl
        | cons f fs =>
          have hsk' : stackOk (f :: fs) := by rw [← hstk]; exact hP.2.2.2
          obtain ⟨⟨hq1, hq2, hq3, hq4⟩, hqs⟩ := hsk'
          have hvcit : isVcKind it.item_type = false := by
            cases hk : it.item_type <;> simp [isVcKind]
            · exact absurd ((hvar hk).1) (by rw [hstk]; simp)
            · exact absurd ((hconst hk).1) (by rw [hstk]; simp)
          have hEq : stateLines ((popFrames (indentLevel line) st.1 st.2).1,
              f.addChild it :: fs) =
              stateLines (popFrames (indentLevel line) st.1 st.2) ++ [n] := by
            simp [stateLines, stackLines, stackSeg, hstk, Frame.addChild, linesF_snoc,
              hln, hch, linesF_nil]
          obtain ⟨hpw', hbd'⟩ := pairwise_bound_step hEq hPpw hPbd
          refine ⟨hpw', hbd', hP.2.1, hP.2.2.1, ?_⟩
          refine ⟨⟨hq1, ?_, ?_, hq4⟩, hqs⟩
          · simp only [Frame.addChild]
            rw [noVcF_snoc, hq2, hvcit, hch]
            rfl
          · simp only [Frame.addChild]
            rw [fpOkF_snoc, hq3, fcompat_of_not_fn hnotfn, hch]
            rfl

theorem buildLoop_inv :
    ∀ (ls : List (List Char)) (k : Nat) (st : CodeForest × List Frame),
      BuildInv k st → BuildInv (k + ls.length) ((enumFrom k ls).foldl buildStep st)
  | [], k, st, h => by simpa [enumFrom] using h
  | l :: ls, k, st, h => by
    have h2 := buildLoop_inv ls (k + 1) (buildStep st (k, l)) (buildStep_inv k l st h)
    have harith : k + 1 + ls.length = k + (l :: ls).length := by
      simp
      omega
    rw [harith] at h2
    simpa [enumFrom] using h2

theorem buildItems_master (text : String) :
    (linesF (buildItems text)).Pairwise (· < ·) ∧
    vcRootOkF (buildItems text) = true ∧
    fpOkF none (buildItems text) = true := by
  have h0 : BuildInv 1 (.nil, []) := by
    refine ⟨?_, ?_, rfl, rfl, trivial⟩
    · simp [stateLines, stackLines, linesF_nil]
    · intro x hx
      simp [stateLines, stackLines, linesF_nil] at hx
  have hF := buildLoop_inv (splitNl text.data) 1 (.nil, []) h0
  obtain ⟨hpw, _, hvr, hfp, hsk⟩ := hF
  have hPF := popFrames_spec 0 (buildState text).2 (buildState text).1 hvr hfp hsk
  have hnil := popFrames_zero_snd (buildState text).1 (buildState text).2
  have hL : linesF (buildItems text) =
      stateLines (popFrames 0 (buildState text).1 (buildState text).2) := by
    simp [buildItems, stateLines, hnil, stackLines]
  refine ⟨?_, hPF.2.1, hPF.2.2.1⟩
  rw [hL, hPF.1]
  exact hpw

theorem skel_withEnd (it : CodeItem) (el : Option Nat) :
    skelI (it.withEnd el) = skelI it := by
  cases it
  rfl

theorem skel_withBl (it : CodeItem) (bi : Option String) :
    skelI (it.withBl bi) = skelI it := by
  cases it
  rfl

theorem skel_withPreview (it : CodeItem) (vp : Option String) :
    skelI (it.withPreview vp) = skelI it := by
  cases it
  rfl

mutual
theorem skel_updFirstI (ln : Nat) (g : CodeItem → CodeItem)
    (hg : ∀ x, skelI (g x) = skelI x) :
    ∀ it : CodeItem, skelI (updFirstI ln g it).1 = skelI it
  | .mk n k l il ch el bi vp => by
    unfold updFirstI
    split
    · exact hg _
    · split
      next ch' heq =>
        have hc : skelF ch' = skelF ch := by
          have := skel_updFirstF ln g hg ch
          rw [heq] at this
          exact this
        simp [skelI, hc]
      next => rfl
theorem skel_updFirstF (ln : Nat) (g : CodeItem → CodeItem)
    (hg : ∀ x, skelI (g x) = skelI x) :
    ∀ f : CodeForest, skelF (updFirstF ln g f).1 = skelF f
  | .nil => rfl
  | .cons a as => by
    unfold updFirstF
    split
    next a' heq =>
      have ha : skelI a' = skelI a := by
        have := skel_updFirstI ln g hg a
        rw [heq] at this
        exact this
      simp [skelF, ha]
    next heq =>
      split
      next as' fb heq2 =>
        have ha : skelF as' = skelF as := by
          have := skel_updFirstF ln g hg as
          rw [heq2] at this
          exact this
        simp [skelF, ha]
end

theorem skel_process_node (lines : List (List Char)) (items : CodeForest)
    (nd : PyAstNode) : skelF (process_node lines items nd) = skelF items := by
  unfold process_node
  cases nd.kind
  · exact skel_updFirstF _ _ (fun x => by rw [skel_withBl, skel_withEnd]) items
  · exact skel_updFirstF _ _ (fun x => by rw [skel_withEnd]) items
  · exact skel_updFirstF _ _ (fun x => by rw [skel_withEnd]) items
  · refine skel_updFirstF _ _ (fun x => ?_) items
    split
    · rw [skel_withPreview, skel_withEnd]
    · rfl
  · rfl

theorem skel_process_ast :
    ∀ (tree : List PyAstNode) (items : CodeForest) (lines : List (List Char)),
      skelF (process_ast tree items lines) = skelF items
  | [], _, _ => rfl
  | nd :: tree, items, lines => by
    unfold process_ast
    rw [List.foldl_cons]
    have h1 := skel_process_ast tree (process_node lines items nd) lines
    unfold process_ast at h1
    rw [h1, skel_process_node]

mutual
theorem skel_fallbackI (lines : List (List Char)) :
    ∀ it : CodeItem, skelI (fallbackI lines it) = skelI it
  | .mk n k ln il ch el bi vp => by
    unfold fallbackI
    simp [skelI, skel_fallbackF lines ch]
theorem skel_fallbackF (lines : List (List Char)) :
    ∀ f : CodeForest, skelF (fallbackF lines f) = skelF f
  | .nil => rfl
  | .cons a as => by
    unfold fallbackF
    simp [skelF, skel_fallbackI lines a, skel_fallbackF lines as]
end

theorem analyze_skel (text : String) (past : Option (List PyAstNode)) :
    skelF (analyze_text text past) = skelF (buildItems text) := by
  unfold analyze_text enhance_items_with_ast
  cases past with
  | none => exact skel_fallbackF _ _
  | some tree => exact skel_process_ast tree _ _

mutual
theorem linesI_skel :
    ∀ it : CodeItem,
      (flattenI (skelI it)).map CodeItem.line_number =
        (flattenI it).map CodeItem.line_number
  | .mk n k l il ch el bi vp => by
    have h := linesF_skel ch
    unfold linesF at h
    simp only [skelI, flattenI, List.map_cons, CodeItem.line_number]
    rw [h]
theorem linesF_skel : ∀ f : CodeForest, linesF (skelF f) = linesF f
  | .nil => rfl
  | .cons a as => by
    simp only [skelF, linesF, flattenF, List.map_append]
    have h1 := linesI_skel a
    have h2 := linesF_skel as
    unfold linesF at h2
    rw [h1, h2]
end

theorem noVc_skelF : ∀ f : CodeForest, noVcF (skelF f) = noVcF f
  | .nil => rfl
  | .cons (.mk n k ln il ch el bi vp) rest => by
    simp [skelF, skelI, noVcF, noVc_skelF ch, noVc_skelF rest]

theorem vcRootOk_skel : ∀ f : CodeForest, vcRootOkF (skelF f) = vcRootOkF f
  | .nil => rfl
  | .cons (.mk n k ln il ch el bi vp) rest => by
    simp [skelF, skelI, vcRootOkF, noVc_skelF ch, vcRootOk_skel rest]

theorem fpOk_skel : ∀ (pk : Option Kind) (f : CodeForest),
    fpOkF pk (skelF f) = fpOkF pk f
  | _, .nil => rfl
  | pk, .cons (.mk n k ln il ch el bi vp) rest => by
    simp [skelF, skelI, fpOkF, fpOk_skel (some k) ch, fpOk_skel pk rest]

theorem analyze_lines_sorted (text : String) (past : Option (List PyAstNode)) :
    (linesF (analyze_text text past)).Pairwise (· < ·) := by
  have h := (buildItems_master text).1
  have : linesF (analyze_text text past) = linesF (buildItems text) := by
    rw [← linesF_skel (analyze_text text past), analyze_skel, linesF_skel]
  rw [this]
  exact h

theorem analyze_vcRootOk (text : String) (past : Option (List PyAstNode)) :
    vcRootOkF (analyze_text text past) = true := by
  rw [← vcRootOk_skel (analyze_text text past), analyze_skel, vcRootOk_skel]
  exact (buildItems_master text).2.1

theorem analyze_fpOk (text : String) (past : Option (List PyAstNode)) :
    fpOkF none (analyze_text text past) = true := by
  rw [← fpOk_skel none (analyze_text text past), analyze_skel, fpOk_skel]
  exact (buildItems_master text).2.2

theorem blt_true {a b : Nat} (h : a < b) : Nat.blt a b = true := by
  simpa [Nat.blt_eq] using h

theorem ascLines_of_pairwise : ∀ l : List Nat, l.Pairwise (· < ·) → ascLines l = true
  | [], _ => rfl
  | [_], _ => rfl
  | a :: b :: r, h => by
    have hab : a < b := (List.pairwise_cons.mp h).1 b (by simp)
    have ht := ascLines_of_pairwise (b :: r) (List.pairwise_cons.mp h).2
    simp [ascLines, blt_true hab, ht]

theorem topLines_sublist : ∀ f : CodeForest,
    List.Sublist (f.toList.map CodeItem.line_number) (linesF f)
  | .nil => List.Sublist.refl _
  | .cons a as => by
    rw [linesF_cons]
    simp only [CodeForest.toList, List.map_cons, List.cons_append]
    exact List.Sublist.cons₂ _
      ((topLines_sublist as).trans (List.sublist_append_right _ _))

theorem good_of_sorted : ∀ f : CodeForest, (linesF f).Pairwise (· < ·) →
    sortedNodesF f = true ∧ parentLtF f = true
  | .nil, _ => ⟨rfl, rfl⟩
  | .cons (.mk n k ln il ch el bi vp) rest, h => by
    rw [linesF_cons] at h
    simp only [CodeItem.line_number, CodeItem.children] at h
    rw [List.pairwise_append] at h
    obtain ⟨h1, h2, _⟩ := h
    have hch : (linesF ch).Pairwise (· < ·) := (List.pairwise_cons.mp h1).2
    have hln : ∀ d ∈ linesF ch, ln < d := (List.pairwise_cons.mp h1).1
    obtain ⟨hs1, hp1⟩ := good_of_sorted ch hch
    obtain ⟨hs2, hp2⟩ := good_of_sorted rest h2
    constructor
    · have hasc := ascLines_of_pairwise _ (hch.sublist (topLines_sublist ch))
      simp [sortedNodesF, hasc, hs1, hs2]
    · have hall : (linesF ch).all (fun d => Nat.blt ln d) = true := by
        rw [List.all_eq_true]
        intro d hd
        exact blt_true (hln d hd)
      simp [parentLtF, hall, hp1, hp2]

theorem find_by_lineno_eq : ∀ (f : CodeForest) (ln : Nat),
    find_by_lineno ln f = (flattenF f).find? (fun it => it.line_number == ln)
  | .nil, _ => rfl
  | .cons (.mk n k l il ch el bi vp) rest, ln => by
    unfold find_by_lineno
    by_cases hl : l = ln
    · rw [if_pos hl]
      simp [flattenF, flattenI, List.find?_cons, CodeItem.line_number, hl]
    · rw [if_neg hl]
      have hp : (CodeItem.line_number (.mk n k l il ch el bi vp) == ln) = false := by
        simp [CodeItem.line_number, hl]
      simp only [flattenF, flattenI, List.cons_append, List.find?_cons, hp]
      rw [List.find?_append, find_by_lineno_eq ch ln, find_by_lineno_eq rest ln]
      cases hc : (flattenF ch).find? (fun it => it.line_number == ln) with
      | some r => simp [hc, Option.or]
      | none => simp [hc, Option.or]

theorem find?_eq_head_filter : ∀ (l : List α) (p : α → Bool),
    l.find? p = (l.filter p).head?
  | [], _ => rfl
  | a :: t, p => by
    rw [List.find?_cons, List.filter_cons]
    by_cases h : p a
    · simp [h]
    · simp only [h]
      exact find?_eq_head_filter t p

theorem minLineItem_high : ∀ (l : List CodeItem) (b : CodeItem),
    (∀ x ∈ l, b.line_number < x.line_number) →
    l.foldl (fun acc it =>
      match acc with
      | none => some it
      | some c => if it.line_number < c.line_number then some it else some c)
      (some b) = some b
  | [], _, _ => rfl
  | a :: t, b, h => by
    have hba : ¬a.line_number < b.line_number := by
      have := h a (by simp)
      omega
    simp only [List.foldl_cons, if_neg hba]
    exact minLineItem_high t b (fun x hx => h x (by simp [hx]))

theorem minLineItem_sorted_head (l : List CodeItem)
    (h : (l.map CodeItem.line_number).Pairwise (· < ·)) :
    minLineItem l = l.head? := by
  cases l with
  | nil => rfl
  | cons a t =>
    unfold minLineItem
    simp only [List.foldl_cons, List.head?]
    have ht : ∀ x ∈ t, a.line_number < x.line_number := by
      intro x hx
      have := (List.pairwise_cons.mp (by simpa using h)).1 x.line_number
        (List.mem_map_of_mem _ hx)
      exact this
    exact minLineItem_high t a ht

theorem find?_unique_lines : ∀ (l : List CodeItem),
    (l.map CodeItem.line_number).Pairwise (· ≠ ·) →
    ∀ it ∈ l, l.find? (fun x => x.line_number == it.line_number) = some it
  | [], _, it, hmem => by simp at hmem
  | a :: t, h, it, hmem => by
    rw [List.map_cons] at h
    have h' := List.pairwise_cons.mp h
    rcases List.mem_cons.mp hmem with hit | hit
    · subst hit
      simp [List.find?_cons]
    · have hne : a.line_number ≠ it.line_number :=
        h'.1 it.line_number (List.mem_map_of_mem _ hit)
      have hp : (a.line_number == it.line_number) = false := by
        simpa using hne
      simp only [List.find?_cons, hp]
      exact find?_unique_lines t h'.2 it hit

theorem find_active_function_eq (items : CodeForest) (cursor : Nat)
    (hs : (linesF items).Pairwise (· < ·)) :
    find_active_function items cursor = specActiveFunction items cursor := by
  unfold find_active_function specActiveFunction
  congr 1
  rw [find?_eq_head_filter, minLineItem_sorted_head]
  exact hs.sublist (List.Sublist.map _ (List.filter_sublist _))

theorem find_active_class_eq (items : CodeForest) (cursor : Nat)
    (hs : (linesF items).Pairwise (· < ·)) :
    find_active_class items cursor = specActiveClass items cursor := by
  unfold find_active_class specActiveClass
  congr 1
  rw [find?_eq_head_filter, minLineItem_sorted_head]
  exact (hs.sublist (topLines_sublist items)).sublist
    (List.Sublist.map _ (List.filter_sublist _))

mutual
theorem matchesI_eq (s : String) :
    ∀ it : CodeItem, item_matches_search s it = specNameMatches s it
  | .mk n k ln il ch el bi vp => by
    unfold item_matches_search specNameMatches
    rw [matchesF_eq s ch]
theorem matchesF_eq (s : String) :
    ∀ f : CodeForest, forest_matches s f = specForestMatches s f
  | .nil => rfl
  | .cons a as => by
    unfold forest_matches specForestMatches
    rw [matchesI_eq s a, matchesF_eq s as]
end

theorem filterRec_eq_spec (nav : NavData) (s : String) :
    ∀ (pk : Option Kind) (f : CodeForest), fpOkF pk f = true →
      filterRec nav s pk f = specFilter nav s f
  | _, .nil, _ => rfl
  | pk, .cons (.mk n k ln il ch el bi vp) rest, h => by
    simp only [fpOkF, Bool.and_eq_true] at h
    obtain ⟨⟨hc, hch⟩, hrest⟩ := h
    have hvis : is_visible nav pk k = specVisible nav k := by
      cases k <;> simp [is_visible, specVisible]
      have hb : (pk == some Kind.class_ || pk == some Kind.function_) = false := by
        simpa [fcompat] using hc
      simp only [Bool.or_eq_false_iff] at hb
      have h1 : ¬(pk = some Kind.class_ ∨ pk = some Kind.function_) := by
        rintro (rfl | rfl) <;> simp at hb
      exact fun hx => absurd hx h1
    have hcond : (is_visible nav pk k && (lowerInfix s n || forest_matches s ch)) =
        (specVisible nav k && specNameMatches s (.mk n k ln il ch el bi vp)) := by
      simp only [specNameMatches]
      rw [hvis, matchesF_eq]
    unfold filterRec specFilter
    rw [hcond]
    split
    · rw [filterRec_eq_spec nav s (some k) ch hch, filterRec_eq_spec nav s pk rest hrest]
    · rw [filterRec_eq_spec nav s pk rest hrest]

mutual
theorem fallback_end_some_i (lines : List (List Char)) :
    ∀ it : CodeItem,
      ((flattenI (fallbackI lines it)).all (fun x => x.end_line.isSome)) = true
  | .mk n k ln il ch el bi vp => by
    unfold fallbackI
    simp only [flattenI, List.all_cons, Bool.and_eq_true]
    constructor
    · cases el <;> simp [CodeItem.end_line]
      split <;> simp
    · have hforest := fallback_end_some_f lines ch
      unfold allEndSomeF at hforest
      simpa [CodeItem.children] using hforest
theorem fallback_end_some_f (lines : List (List Char)) :
    ∀ f : CodeForest, allEndSomeF (fallbackF lines f) = true
  | .nil => rfl
  | .cons a as => by
    unfold fallbackF allEndSomeF
    simp only [flattenF, List.all_append, Bool.and_eq_true]
    constructor
    · exact fallback_end_some_i lines a
    · have := fallback_end_some_f lines as
      unfold allEndSomeF at this
      exact this
end

/- ------------------------------------------------------------------ -/
/- Claim theorems.                                                     -/
/- ------------------------------------------------------------------ -/

/-- C1 counterexample: on the input `"x: int"`, which parses
    successfully, the annotated-property node keeps `end_line = None`
    after `enhance_items_with_ast` completes (an `AnnAssign` is none of
    the node classes `_process_ast` handles), refuting the claim that
    every node ends up with a non-`None` `end_line` on both paths. -/
theorem claim1_counterexample :
    allEndSomeF (analyze_text annText (some annAst)) = false := rfl

/-- C1 (amended): when parsing raises `SyntaxError` (the fallback
    path), every node of the tree — at all depths — has a non-`None`
    `end_line` after `enhance_items_with_ast` completes; on the
    successful-parse path only nodes matched by a walked
    ClassDef/FunctionDef/AsyncFunctionDef/Assign node are updated, so a
    node such as an annotated property can keep `end_line = None`. -/
theorem claim1_fallback_end_lines_total :
    ∀ (items : CodeForest) (text : String),
      allEndSomeF (enhance_items_with_ast items text none) = true :=
  fun items text => fallback_end_some_f (splitNl text.data) items

/-- C2 counterexample: on the class-with-method tree, disabling
    `show_methods` does NOT remove the method node from the rendered
    output — `is_visible` has no branch for the `'method'` item type
    and falls through to `True`. -/
theorem claim2_counterexample :
    navNoMethods.show_methods = false ∧
    (flattenF ((filter_items (analyze_text clsMethText (some clsMethAst)) ""
        navNoMethods).1)).any (fun it => it.item_type == Kind.method_) = true :=
  ⟨rfl, rfl⟩

/-- C2 (amended): for every analyzer-produced tree, search text and
    toggle settings, the rendered output of `filter_items` is exactly
    the spec's recursive filter with one amendment: method nodes are
    always visible regardless of the methods toggle (the
    `show_methods` branch only applies to `'function'`-kind nodes whose
    parent is a class or function, which the analyzer never produces);
    a node is kept iff it passes that visibility rule and its name, or
    a descendant's name, contains the search text case-insensitively,
    with children filtered recursively (a hidden node prunes its whole
    subtree). -/
theorem claim2_filter_matches_spec :
    ∀ (text : String) (past : Option (List PyAstNode)) (s : String) (nav : NavData),
      (filter_items (analyze_text text past) s nav).1 =
        specFilter nav s (analyze_text text past) :=
  fun text past s nav =>
    filterRec_eq_spec nav s none (analyze_text text past) (analyze_fpOk text past)

/-- C3: `filter_items` does NOT leave the cached tree unchanged.  On
    the class-with-property tree with `show_properties` off, the call
    strips the property child out of the cached class node
    (`new_item = item` aliases the cached item, whose `children` list
    is then reassigned to the filtered list): the post-state has one
    node where the input had two. -/
theorem claim3_filter_mutates_cache :
    (flattenF ((filter_items (analyze_text clsPropText (some clsPropAst)) ""
        navNoProps).2)).length = 1 ∧
    (flattenF (analyze_text clsPropText (some clsPropAst))).length = 2 ∧
    ((flattenF ((filter_items (analyze_text clsPropText (some clsPropAst)) ""
        navNoProps).2)).length ==
      (flattenF (analyze_text clsPropText (some clsPropAst))).length) = false :=
  ⟨rfl, rfl, rfl⟩

/-- C4 counterexample: with `def f` enclosing `def g` and the cursor on
    line 3 (inside both spans), the code reports `f` — the FIRST
    function in pre-order, i.e. the outermost — while the claim's
    "innermost" rule would report `g`. -/
theorem claim4_counterexample :
    find_active_function (analyze_text nestedText (some nestedAst)) 3 =
      some ("f", 1) ∧
    claimInnermostFunction (analyze_text nestedText (some nestedAst)) 3 =
      some ("g", 2) ∧
    ((some ("f", 1) : Option (String × Nat)) == some ("g", 2)) = false :=
  ⟨rfl, rfl, by decide⟩

/-- C4 (amended): the function reported active is the OUTERMOST
    function/method — the one with the smallest `start_line` — among
    those whose `[start_line, end_line]` span contains the cursor line,
    and the class reported active is the top-level class with the
    smallest `start_line` whose span contains the cursor (nested
    classes are never examined).  The two are computed independently of
    each other. -/
theorem claim4_active_items :
    ∀ (text : String) (past : Option (List PyAstNode)) (cursor : Nat),
      find_active_function (analyze_text text past) cursor =
        specActiveFunction (analyze_text text past) cursor ∧
      find_active_class (analyze_text text past) cursor =
        specActiveClass (analyze_text text past) cursor :=
  fun text past cursor =>
    ⟨find_active_function_eq _ cursor (analyze_lines_sorted text past),
     find_active_class_eq _ cursor (analyze_lines_sorted text past)⟩

/-- C5 counterexample: for `x = "<60 a's>"` (which parses), the AST
    enricher overwrites the pattern-matcher's preview with
    `str(value)[:50]` — fifty `a`s, WITHOUT an ellipsis marker and
    without the surrounding quotes of the right-hand-side text — so the
    final preview is not the RHS text capped at 50 with `"..."`
    appended as the claim states. -/
theorem claim5_counterexample :
    (flattenF (analyze_text longText (some longAst))).map CodeItem.value_preview =
      [some (String.mk (longRepr.data.take 50))] ∧
    ((String.mk (longRepr.data.take 50)).data ==
      (claimPreviewOf (String.mk (pyStrip (afterFirst '=' longText.data)))).data) =
      false :=
  ⟨rfl, by decide⟩

/-- C5 (amended): a preview set by the pattern matcher is the text
    after the first `=` (stripped), capped at 50 characters with an
    ellipsis marker appended exactly when that text exceeds 50
    characters; a preview set by the AST enricher is either `None` (a
    non-literal right-hand side — this overwrites any pattern preview)
    or the first 50 characters of `str()` of the literal value, with no
    ellipsis marker. -/
theorem claim5_preview_sources :
    (∀ (l : List Char) (n i : Nat) (pt : Option Kind) (full : List Char)
       (it : CodeItem), parse_line l n i pt full = some it →
       ∀ p, it.value_preview = some p → p = previewOf full) ∧
    (∀ (vn : PyAstNode) (lt : List Char),
       extract_value_preview vn lt = none ∨
       ∃ r, vn.value_repr = some r ∧
         extract_value_preview vn lt = some (String.mk (r.data.take 50))) := by
  constructor
  · intro l n i pt full it h p hp
    exact (parse_line_spec l n i pt full it h).2.2.2.2.2.2 p hp
  · intro vn lt
    cases hr : vn.value_repr with
    | none => exact Or.inl (by simp [extract_value_preview, hr])
    | some r => exact Or.inr ⟨r, rfl, by simp [extract_value_preview, hr]⟩

/-- C5 witness: instantiating the pattern-matcher half on the line
    `x = 1`, whose parsed item carries preview `"1"`. -/
theorem claim5_witness : ("1" : String) = previewOf ("x = 1".data) :=
  claim5_preview_sources.1 ("x = 1".data) 1 0 none ("x = 1".data)
    (CodeItem.mk "x" .variable_ 1 0 .nil none none (some "1")) rfl "1" rfl

/-- C6 counterexample: on the spec's four-line example, the claimed
    tree (with `X` of kind VARIABLE) is not what `analyze_text`
    returns — `"X".isupper()` holds, so the constant branch fires
    first and `X` gets kind `'constant'`. -/
theorem claim6_counterexample :
    claimC6holds (analyze_text exText (some exAst)) = false := rfl

/-- C6 (amended): on the four-line example the analyzer returns
    exactly two roots — `Foo` (class, lines 1–3) with single child
    `bar` (method, lines 2–3), and `X` with kind CONSTANT (not
    variable), lines 4–4, preview `"1"`. -/
theorem claim6_example_tree :
    analyze_text exText (some exAst) =
      .cons (.mk "Foo" .class_ 1 0
          (.cons (.mk "bar" .method_ 2 4 .nil (some 3) none none) .nil)
          (some 3) none none)
        (.cons (.mk "X" .constant_ 4 0 .nil (some 4) none (some "1")) .nil) := rfl

/-- C7: the pattern matcher produces a constant item only at module
    scope (empty stack, i.e. `parent_type is None`) with an
    all-uppercase captured name, and a variable item only at module
    scope with a non-all-uppercase name (so no line is classified as
    both — `_parse_line` returns at most one item); consequently every
    variable/constant node of every analyzed tree is a module-level
    root: no node below the roots has either kind. -/
theorem claim7_module_scope_vc :
    (∀ (l : List Char) (n i : Nat) (pt : Option Kind) (full : List Char)
       (it : CodeItem), parse_line l n i pt full = some it →
       (it.item_type = .constant_ → pt = none ∧ pyIsUpper it.name = true) ∧
       (it.item_type = .variable_ → pt = none ∧ pyIsUpper it.name = false)) ∧
    (∀ (text : String) (past : Option (List PyAstNode)),
       vcRootOkF (analyze_text text past) = true) := by
  constructor
  · intro l n i pt full it h
    exact ⟨(parse_line_spec l n i pt full it h).2.2.2.2.1,
      (parse_line_spec l n i pt full it h).2.2.2.2.2.1⟩
  · exact analyze_vcRootOk

/-- C7 witness: instantiating the constant half on the module-scope
    line `X = 1`. -/
theorem claim7_witness :
    (none : Option Kind) = none ∧ pyIsUpper "X" = true :=
  (claim7_module_scope_vc.1 ("X = 1".data) 1 0 none ("X = 1".data)
    (CodeItem.mk "X" .constant_ 1 0 .nil none none (some "1")) rfl).1 rfl

/-- C8: in every tree returned by `analyze_text`, every node's
    `children` list is strictly ascending by `line_number`, and every
    node's `line_number` is strictly below the `line_number` of each of
    its descendants. -/
theorem claim8_tree_order :
    ∀ (text : String) (past : Option (List PyAstNode)),
      sortedNodesF (analyze_text text past) = true ∧
      parentLtF (analyze_text text past) = true :=
  fun text past => good_of_sorted _ (analyze_lines_sorted text past)

/-- C9: `analyze_text` is deterministic in its text argument: its
    result does not depend on the mutable `NavigationState` singleton,
    so a run after any interleaved sequence of navigation operations
    (rebuilds, cache-mutating `filter_items` calls, expansion toggles)
    returns a tree structurally identical — here, equal — to a run
    before them, and both equal the pure analysis of the text (with the
    same parse outcome, `ast.parse` being deterministic in the text). -/
theorem claim9_deterministic :
    ∀ (s : NavState) (ops : List NavOp) (text : String)
      (past : Option (List PyAstNode)),
      analyze_text_in_state (applyOps s ops) text past =
        analyze_text_in_state s text past ∧
      analyze_text_in_state s text past = analyze_text text past :=
  fun _ _ _ _ => ⟨rfl, rfl⟩

/-- C10: no two nodes of an analyzed tree share a `line_number`, and
    `_find_by_lineno` therefore identifies each node unambiguously:
    looking up any node's own line number returns exactly that node. -/
theorem claim10_unique_lines :
    ∀ (text : String) (past : Option (List PyAstNode)),
      ((flattenF (analyze_text text past)).map CodeItem.line_number).Pairwise
        (· ≠ ·) ∧
      ∀ it ∈ flattenF (analyze_text text past),
        find_by_lineno it.line_number (analyze_text text past) = some it := by
  intro text past
  have hpw : ((flattenF (analyze_text text past)).map CodeItem.line_number).Pairwise
      (· ≠ ·) := by
    have := analyze_lines_sorted text past
    unfold linesF at this
    exact this.imp Nat.ne_of_lt
  refine ⟨hpw, fun it hmem => ?_⟩
  rw [find_by_lineno_eq]
  exact find?_unique_lines _ hpw it hmem

/-- C10 witness: looking up line 4 in the analyzed four-line example
    returns the `X` node. -/
theorem claim10_witness :
    find_by_lineno 4 (analyze_text exText (some exAst)) =
      some (CodeItem.mk "X" Kind.constant_ 4 0 CodeForest.nil (some 4) none
        (some "1")) :=
  (claim10_unique_lines exText (some exAst)).2
    (CodeItem.mk "X" Kind.constant_ 4 0 CodeForest.nil (some 4) none (some "1"))
    (List.Mem.tail _ (List.Mem.tail _ (List.Mem.head _)))
